import Mathlib

/-!
Shallow embedding of the Micro_LLMs native inference controllers
(`llama_jni.cpp` and `whisper_jni.cpp`) and proofs about them.

External engine calls (`llama_decode`, `llama_model_load_from_file`,
`llama_init_from_model`, `whisper_full`) are modelled as oracle parameters;
the state mutated by the wrappers (`g_model`, `g_ctx`, `g_sampler`,
`g_n_past`, `g_wctx`) is passed explicitly.
-/

namespace MicroLLM

/-! ## Generation controller: data model (`llama_jni.cpp`) -/

/-- A sampling stage added to the `llama_sampler` chain.  Float parameters of
the source (`0.7f`, `0.9f`, ...) are represented as rationals. -/
inductive SamplerStage where
  | top_k (k : Int)
  | top_p (p : ℚ) (minKeep : Nat)
  | temp (t : ℚ)
  | dist (seed : Nat)
  | greedy
deriving DecidableEq

/-- The sampler chain is the ordered list of its stages
(`llama_sampler_chain_add` appends). -/
abbrev SamplerChain := List SamplerStage

/-- The observable parameters of a `llama_context` created by
`llama_init_from_model` with the `llama_context_params` set up in
`loadModel` (`llama_n_batch` reads back `n_batch`). -/
structure LlamaCtx where
  n_ctx : Int
  n_batch : Nat
  n_ubatch : Nat
  n_threads : Int
  n_threads_batch : Int
  flash_attn_disabled : Bool
deriving DecidableEq

/-- The process-wide mutable state of `llama_jni.cpp`: `g_model`, `g_ctx`,
`g_sampler` and `g_n_past`.  The model handle is opaque. -/
structure LlamaState where
  g_model : Option Unit
  g_ctx : Option LlamaCtx
  g_sampler : Option SamplerChain
  g_n_past : Int
deriving DecidableEq

/-- State right after `llama_backend_init`, before any load. -/
def initState : LlamaState := ⟨none, none, none, 0⟩

/-- One slot of a `llama_batch` as filled by `decode_tokens_internal`:
token id, cache position, sequence count, sequence id and the logits flag. -/
structure BatchEntry where
  token : Int
  pos : Int
  n_seq_id : Nat
  seq_id : Int
  logits : Bool
deriving DecidableEq

/-- The batch built for one chunk: entry `i` holds `token = chunk[i]`,
`pos = n_past + i`, `n_seq_id = 1`, `seq_id[0] = 0` and `logits = 0`;
afterwards `logits[n_eval-1]` is set to `1` when this chunk is the final
chunk of the call, which we express as flagging the last entry. -/
def mkBatch : List Int → Int → Bool → List BatchEntry
  | [], _, _ => []
  | t :: ts, p, fin =>
      { token := t, pos := p, n_seq_id := 1, seq_id := 0,
        logits := fin && ts.isEmpty } :: mkBatch ts (p + 1) fin

/-- The `while (offset < n_tokens)` loop of `decode_tokens_internal`.
`eval k b` is the status `llama_decode` reports for the `k`-th submitted
batch `b` of this call (an oracle for the external engine).  The fuel
argument bounds the iteration count; `tokens.length` iterations always
suffice because each iteration consumes `min n_batch remaining ≥ 1` tokens
whenever `0 < n_batch` (the source always configures `n_batch = 512`).
Returns the status, the final `g_n_past` and the submitted batches
(including a failing one). -/
def decodeLoop (eval : Nat → List BatchEntry → Int) (n_batch : Nat) :
    Nat → Nat → List Int → Int → Int × Int × List (List BatchEntry)
  | _, _, [], n_past => (0, n_past, [])
  | 0, _, _ :: _, n_past => (0, n_past, [])
  | fuel + 1, k, t :: ts, n_past =>
      let rem := t :: ts
      let n_eval := min n_batch rem.length
      let chunk := rem.take n_eval
      let batch := mkBatch chunk n_past (n_eval == rem.length)
      let res := eval k batch
      if res ≠ 0 then (res, n_past, [batch])
      else
        let r := decodeLoop eval n_batch fuel (k + 1) (rem.drop n_eval) (n_past + n_eval)
        (r.1, r.2.1, batch :: r.2.2)

/-- `decode_tokens_internal`: returns `-1` leaving the state alone when no
context is loaded, otherwise runs the chunk loop with the context's batch
width, updating `g_n_past`.  The submitted batches are returned as a ghost
observation of the `llama_decode` calls. -/
def decode_tokens_internal (eval : Nat → List BatchEntry → Int)
    (s : LlamaState) (tokens : List Int) :
    Int × LlamaState × List (List BatchEntry) :=
  match s.g_ctx with
  | none => (-1, s, [])
  | some ctx =>
      let r := decodeLoop eval ctx.n_batch tokens.length 0 tokens s.g_n_past
      (r.1, { s with g_n_past := r.2.1 }, r.2.2)

/-- Number of chunks `decode` issues for `n` tokens at batch width `B`,
i.e. `⌈n/B⌉`. -/
def ceilChunks (n B : Nat) : Nat := (n + B - 1) / B

/-- The default chain built at the end of a successful `loadModel`:
top-k(40), top-p(0.9, min-keep 1), temperature(0.7), dist(seed 42). -/
def defaultSamplerChain : SamplerChain :=
  [SamplerStage.top_k 40, SamplerStage.top_p (9/10) 1,
   SamplerStage.temp (7/10), SamplerStage.dist 42]

/-- Teardown/free events, recording the order in which handles are
destroyed (ghost trace; the pure state cannot observe destruction order). -/
inductive FreeEvent where
  | freeSampler
  | freeCtx
  | freeModel
deriving DecidableEq

/-- `loadModel`: `weightLoad` is the result of
`llama_model_load_from_file` (`none` = failure) and `ctxCreate` tells
whether `llama_init_from_model` succeeds.  Mirrors the source: pre-teardown
when a model is loaded (freeing sampler, context, model in that order and
zeroing `g_n_past`), then weight load, then context creation with
`n_batch = n_ubatch = 512`, flash attention disabled; on context failure the
fresh model is freed again; on success `g_n_past := 0` and the default
sampler chain is installed. -/
def loadModel (weightLoad : Option Unit) (ctxCreate : Bool)
    (contextSize threads : Int) (s : LlamaState) :
    Bool × LlamaState × List FreeEvent :=
  let torn :=
    match s.g_model with
    | some _ =>
        (({ g_model := none, g_ctx := none, g_sampler := none,
            g_n_past := 0 } : LlamaState),
         (if s.g_sampler.isSome then [FreeEvent.freeSampler] else []) ++
         (if s.g_ctx.isSome then [FreeEvent.freeCtx] else []) ++
         [FreeEvent.freeModel])
    | none => (s, [])
  match weightLoad with
  | none => (false, torn.1, torn.2)
  | some m =>
      if ctxCreate then
        (true,
         { g_model := some m,
           g_ctx := some { n_ctx := contextSize, n_batch := 512, n_ubatch := 512,
                           n_threads := threads, n_threads_batch := threads,
                           flash_attn_disabled := true },
           g_sampler := some defaultSamplerChain,
           g_n_past := 0 },
         torn.2)
      else
        (false, { torn.1 with g_model := none, g_ctx := none },
         torn.2 ++ [FreeEvent.freeModel])

/-- `resetSampler`: frees the old chain and builds a new one from the
arguments: top-k only if `topK > 0`, top-p (min-keep 1) only if
`topP < 1.0`, then temperature plus dist(42) if `temperature > 0`,
otherwise greedy.  Only `g_sampler` is written. -/
def resetSampler (s : LlamaState) (temperature topP : ℚ) (topK : Int) :
    LlamaState :=
  { s with g_sampler := some (
      (if topK > 0 then [SamplerStage.top_k topK] else []) ++
      (if topP < 1 then [SamplerStage.top_p topP 1] else []) ++
      (if temperature > 0 then [SamplerStage.temp temperature, SamplerStage.dist 42]
       else [SamplerStage.greedy])) }

/-! ## UTF-8 replacement decoding (`new_string_from_utf8_bytes`,
`tokenToString`) -/

/-- A UTF-8 continuation byte: `0x80..0xBF`. -/
def utf8Cont (c : Nat) : Prop := 0x80 ≤ c ∧ c ≤ 0xBF

instance (c : Nat) : Decidable (utf8Cont c) := by unfold utf8Cont; infer_instance

/-- Lead byte of a two-byte sequence: `0xC2..0xDF`. -/
def twoByteLead (b : Nat) : Prop := 0xC2 ≤ b ∧ b ≤ 0xDF

instance (b : Nat) : Decidable (twoByteLead b) := by
  unfold twoByteLead; infer_instance

/-- Lead byte of a three-byte sequence: `0xE0..0xEF`. -/
def threeByteLead (b : Nat) : Prop := 0xE0 ≤ b ∧ b ≤ 0xEF

instance (b : Nat) : Decidable (threeByteLead b) := by
  unfold threeByteLead; infer_instance

/-- Lead byte of a four-byte sequence: `0xF0..0xF4`. -/
def fourByteLead (b : Nat) : Prop := 0xF0 ≤ b ∧ b ≤ 0xF4

instance (b : Nat) : Decidable (fourByteLead b) := by
  unfold fourByteLead; infer_instance

/-- Valid first continuation byte after a three-byte lead, restricted to
exclude overlong encodings (`0xE0`) and surrogates (`0xED`). -/
def cont3 (b c : Nat) : Prop :=
  (b = 0xE0 ∧ 0xA0 ≤ c ∧ c ≤ 0xBF) ∨
  (b = 0xED ∧ 0x80 ≤ c ∧ c ≤ 0x9F) ∨
  (b ≠ 0xE0 ∧ b ≠ 0xED ∧ utf8Cont c)

instance (b c : Nat) : Decidable (cont3 b c) := by unfold cont3; infer_instance

/-- Valid first continuation byte after a four-byte lead, restricted to
exclude overlong encodings (`0xF0`) and code points above `U+10FFFF`
(`0xF4`). -/
def cont4 (b c : Nat) : Prop :=
  (b = 0xF0 ∧ 0x90 ≤ c ∧ c ≤ 0xBF) ∨
  (b = 0xF4 ∧ 0x80 ≤ c ∧ c ≤ 0x8F) ∨
  (b ≠ 0xF0 ∧ b ≠ 0xF4 ∧ utf8Cont c)

instance (b c : Nat) : Decidable (cont4 b c) := by unfold cont4; infer_instance

/-- The replacement character U+FFFD. -/
def replacementChar : Nat := 0xFFFD

/-- One decoding step on the lead byte `b` with the following bytes
`rest`: returns how many bytes of `rest` belong to the decoded sequence and
the resulting code point.  A well-formed sequence is consumed whole and
yields its scalar value; anything malformed consumes only the lead byte
and yields U+FFFD. -/
def utf8Step (b : Nat) (rest : List Nat) : Nat × Nat :=
  if b < 0x80 then (0, b)
  else if twoByteLead b then
    match rest with
    | c :: _ =>
        if utf8Cont c then (1, (b - 0xC0) * 64 + (c - 0x80))
        else (0, replacementChar)
    | [] => (0, replacementChar)
  else if threeByteLead b then
    match rest with
    | c :: d :: _ =>
        if cont3 b c ∧ utf8Cont d then
          (2, (b - 0xE0) * 4096 + (c - 0x80) * 64 + (d - 0x80))
        else (0, replacementChar)
    | _ => (0, replacementChar)
  else if fourByteLead b then
    match rest with
    | c :: d :: e :: _ =>
        if cont4 b c ∧ utf8Cont d ∧ utf8Cont e then
          (3, (b - 0xF0) * 262144 + (c - 0x80) * 4096 + (d - 0x80) * 64 +
            (e - 0x80))
        else (0, replacementChar)
    | _ => (0, replacementChar)
  else (0, replacementChar)

/-- The decoding loop.  The fuel only bounds recursion depth: every step
consumes at least the lead byte, so `bs.length` steps always decode `bs`
completely. -/
def utf8DecodeGo : Nat → List Nat → List Nat
  | _, [] => []
  | 0, _ :: _ => []
  | fuel + 1, b :: rest =>
      let s := utf8Step b rest
      s.2 :: utf8DecodeGo fuel (rest.drop s.1)

/-- Modelled from the spec: the host runtime's `String(byte[], UTF_8)`
constructor used by `new_string_from_utf8_bytes` (the constructor itself is
not part of this repository).  Per the spec it "tolerates invalid sequences
and replaces them (U+FFFD)": well-formed UTF-8 sequences decode to their
scalar value, malformed bytes are replaced by U+FFFD and decoding
continues; the function is total.  The result is the decoded code-point
sequence. -/
def utf8DecodeReplace (bs : List Nat) : List Nat :=
  utf8DecodeGo bs.length bs

/-- Well-formed UTF-8 byte sequences (standard grammar: ASCII, and 2-, 3-,
4-byte sequences excluding overlongs, surrogates and values above
`U+10FFFF`). -/
inductive Utf8Valid : List Nat → Prop where
  | nil : Utf8Valid []
  | one {b rest} : b < 0x80 → Utf8Valid rest → Utf8Valid (b :: rest)
  | two {b c rest} : twoByteLead b → utf8Cont c → Utf8Valid rest →
      Utf8Valid (b :: c :: rest)
  | three {b c d rest} : threeByteLead b → cont3 b c → utf8Cont d →
      Utf8Valid rest → Utf8Valid (b :: c :: d :: rest)
  | four {b c d e rest} : fourByteLead b → cont4 b c → utf8Cont d →
      utf8Cont e → Utf8Valid rest → Utf8Valid (b :: c :: d :: e :: rest)

/-- `new_string_from_utf8_bytes`: empty result for `len ≤ 0` (or a null
pointer), otherwise the first `len` buffer bytes decoded as UTF-8 with
replacement (via the host string constructor, never the strict
Modified-UTF-8 path). -/
def new_string_from_utf8_bytes (bytes : List Nat) (len : Int) : List Nat :=
  if len ≤ 0 then [] else utf8DecodeReplace (bytes.take len.toNat)

/-- `tokenToString`: empty string when no model is loaded; otherwise
`pieceLookup` models `llama_token_to_piece` on the 4096-byte buffer,
returning the reported length and the buffer contents.  A negative length
yields the empty string, otherwise the written bytes are converted via
`new_string_from_utf8_bytes`. -/
def tokenToString (pieceLookup : Int → Int × List Nat)
    (s : LlamaState) (token : Int) : List Nat :=
  match s.g_model with
  | none => []
  | some _ =>
      let r := pieceLookup token
      if r.1 < 0 then []
      else new_string_from_utf8_bytes r.2 r.1

/-! ## Transcription controller (`whisper_jni.cpp`), with whisper compiled
in (`HAS_WHISPER = 1`) -/

/-- Segment text, as the byte string `std::string` holds. -/
abbrev Text := List Nat

/-- Oracle for one `whisper_full` run: the status it returns and the
batches of new segments it reports, in order.  Each batch triggers one
`new_segment_callback` invocation when a callback is registered; the
segments enumerated by `whisper_full_n_segments` /
`whisper_full_get_segment_text` after the run are exactly the reported
batches in order (`batches.flatten`). -/
structure WhisperRun where
  status : Int
  batches : List (List Text)

/-- The process-wide mutable state of `whisper_jni.cpp`: whether `g_wctx`
is non-null, and `g_threads`. -/
structure WhisperState where
  loaded : Bool
  g_threads : Int

/-- `pcm16_to_f32`: scales each 16-bit sample by `1/32768`. -/
def pcm16_to_f32 (pcm : List Int) : List ℚ :=
  pcm.map (fun v => (v : ℚ) / 32768)

/-- Base language: the part of the tag before the first hyphen
(`"es-ES" → "es"`), `"en"` when no tag is given.  `'-'` is byte 45. -/
def baseLang (tag : Option Text) : Text :=
  let s := tag.getD [101, 110]
  s.takeWhile (fun b => b ≠ 45)

/-- Result of `transcribePcm16`: the returned string (`none` = null, i.e.
failure) and whether `whisper_full` was invoked (ghost observation). -/
structure TranscribeResult where
  result : Option Text
  engineInvoked : Bool
deriving DecidableEq

/-- `transcribePcm16`: fails when no model is loaded; returns `""` for an
empty sample array; converts the samples; rejects any sample rate other
than 16000; otherwise runs `whisper_full` (greedy, with the base language)
and on status 0 returns the concatenation of all segment texts. -/
def transcribePcm16 (run : WhisperRun) (st : WhisperState) (pcm : List Int)
    (sampleRate : Int) (tag : Option Text) (translate : Bool) :
    TranscribeResult :=
  if st.loaded = false then ⟨none, false⟩
  else if pcm.length = 0 then ⟨some [], false⟩
  else
    let _audio := pcm16_to_f32 pcm
    if sampleRate ≠ 16000 then ⟨none, false⟩
    else
      let _lang := baseLang tag
      if run.status ≠ 0 then ⟨none, true⟩
      else ⟨some (run.batches.flatten.flatten), true⟩

/-- Cumulative strings passed to the sink by `on_new_segment_cb`: after
each batch of new segments, the accumulated string extended by that batch's
segment texts is passed (a full replace, not a delta). -/
def sinkTrace (acc : Text) : List (List Text) → List Text
  | [] => []
  | b :: bs =>
      let acc2 := acc ++ b.flatten
      acc2 :: sinkTrace acc2 bs

/-- Result of `transcribePcm16Streaming`: return value, engine invocation
flag, and the strings passed to the sink in order. -/
structure StreamResult where
  result : Option Text
  engineInvoked : Bool
  sinkCalls : List Text
deriving DecidableEq

/-- `transcribePcm16Streaming`: same preprocessing as the one-shot variant;
when a sink is supplied (`hasSink`), `on_new_segment_cb` is registered and
passes the cumulative text after each segment batch; the return value is
recomputed from all segments after the run. -/
def transcribePcm16Streaming (run : WhisperRun) (st : WhisperState)
    (pcm : List Int) (sampleRate : Int) (tag : Option Text)
    (translate : Bool) (hasSink : Bool) : StreamResult :=
  if st.loaded = false then ⟨none, false, []⟩
  else if pcm.length = 0 then ⟨some [], false, []⟩
  else
    let _audio := pcm16_to_f32 pcm
    if sampleRate ≠ 16000 then ⟨none, false, []⟩
    else
      let _lang := baseLang tag
      let calls := if hasSink then sinkTrace [] run.batches else []
      if run.status ≠ 0 then ⟨none, true, calls⟩
      else ⟨some (run.batches.flatten.flatten), true, calls⟩

/-! ## Helper lemmas about the decode loop -/

lemma mkBatch_map_token (l : List Int) (f : Bool) :
    ∀ p : Int, (mkBatch l p f).map BatchEntry.token = l := by
  induction l with
  | nil => intro p; rfl
  | cons t ts ih => intro p; simp [mkBatch, ih]

lemma mkBatch_length (l : List Int) (f : Bool) :
    ∀ p : Int, (mkBatch l p f).length = l.length := by
  induction l with
  | nil => intro p; rfl
  | cons t ts ih => intro p; simp [mkBatch, ih]

lemma mkBatch_map_pos (l : List Int) (f : Bool) :
    ∀ p : Int, (mkBatch l p f).map BatchEntry.pos
      = (List.range l.length).map (fun j : Nat => p + (j : Int)) := by
  induction l with
  | nil => intro p; rfl
  | cons t ts ih =>
      intro p
      simp only [mkBatch, List.map_cons, ih, List.length_cons,
        List.range_succ_eq_map, List.map_map]
      congr 1
      · simp
      · apply List.map_congr_left
        intro j hj
        simp only [Function.comp_apply]
        push_cast
        ring

lemma range_shift_split (np : Int) (a b : Nat) :
    (List.range (a + b)).map (fun j : Nat => np + (j : Int))
      = (List.range a).map (fun j : Nat => np + (j : Int)) ++
        (List.range b).map (fun j : Nat => np + (a : Int) + (j : Int)) := by
  rw [List.range_add, List.map_append, List.map_map]
  congr 1
  apply List.map_congr_left
  intro j hj
  simp only [Function.comp_apply]
  push_cast
  ring

lemma mkBatch_logits_false (l : List Int) :
    ∀ p : Int, (mkBatch l p false).map BatchEntry.logits
      = List.replicate l.length false := by
  induction l with
  | nil => intro p; rfl
  | cons t ts ih => intro p; simp [mkBatch, ih, List.replicate_succ]

lemma mkBatch_logits_true (l : List Int) (hne : l ≠ []) :
    ∀ p : Int, (mkBatch l p true).map BatchEntry.logits
      = List.replicate (l.length - 1) false ++ [true] := by
  induction l with
  | nil => exact absurd rfl hne
  | cons t ts ih =>
      intro p
      cases ts with
      | nil => simp [mkBatch, List.isEmpty]
      | cons u us =>
          have h2 := ih (by simp) (p + 1)
          simp only [mkBatch, List.map_cons] at h2 ⊢
          rw [h2]
          simp [List.replicate_succ]

lemma ceilChunks_zero (B : Nat) (hB : 0 < B) : ceilChunks 0 B = 0 := by
  unfold ceilChunks
  exact Nat.div_eq_of_lt (by omega)

lemma ceilChunks_pos_eq (n B : Nat) (hB : 0 < B) (hn : 0 < n) :
    ceilChunks n B = (n - 1) / B + 1 := by
  unfold ceilChunks
  have h : n + B - 1 = (n - 1) + B := by omega
  rw [h, Nat.add_div_right _ hB]

lemma ceilChunks_step (n B : Nat) (hB : 0 < B) (hn : 0 < n) :
    ceilChunks n B = 1 + ceilChunks (n - min B n) B := by
  rcases le_or_lt n B with h | h
  · have h1 : min B n = n := by omega
    rw [h1, Nat.sub_self, ceilChunks_zero B hB, ceilChunks_pos_eq n B hB hn]
    have : (n - 1) / B = 0 := Nat.div_eq_of_lt (by omega)
    omega
  · have h1 : min B n = B := by omega
    rw [h1, ceilChunks_pos_eq n B hB hn, ceilChunks_pos_eq (n - B) B hB (by omega)]
    have h2 : n - 1 = (n - B - 1) + B := by omega
    rw [h2, Nat.add_div_right _ hB]
    omega

/-- Behaviour of the chunk loop when every evaluation succeeds: status 0,
`n_past` advanced by the number of tokens, and the submitted batches form
`⌈n/B⌉` consecutive chunks of size between 1 and `B` whose positions are
`n_past`, `n_past+1`, .... -/
lemma decodeLoop_success (eval : Nat → List BatchEntry → Int) (B : Nat)
    (hB : 0 < B) (h0 : ∀ k b, eval k b = 0) :
    ∀ fuel ts (k : Nat) (np : Int), ts.length ≤ fuel →
      (decodeLoop eval B fuel k ts np).1 = 0 ∧
      (decodeLoop eval B fuel k ts np).2.1 = np + ts.length ∧
      ((decodeLoop eval B fuel k ts np).2.2.map (List.map BatchEntry.token)).flatten
        = ts ∧
      (∀ b ∈ (decodeLoop eval B fuel k ts np).2.2, b.length ≤ B ∧ b ≠ []) ∧
      (decodeLoop eval B fuel k ts np).2.2.length = ceilChunks ts.length B ∧
      ((decodeLoop eval B fuel k ts np).2.2.flatten.map BatchEntry.pos)
        = (List.range ts.length).map (fun j : Nat => np + (j : Int)) := by
  intro fuel
  induction fuel with
  | zero =>
      intro ts k np h
      have hts : ts = [] := List.length_eq_zero.mp (by omega)
      subst hts
      refine ⟨rfl, by simp [decodeLoop], by simp [decodeLoop], ?_, ?_, ?_⟩
      · intro b hb; simp [decodeLoop] at hb
      · simp [decodeLoop, ceilChunks_zero B hB]
      · simp [decodeLoop]
  | succ fuel ih =>
      intro ts k np h
      cases ts with
      | nil =>
          refine ⟨rfl, by simp [decodeLoop], by simp [decodeLoop], ?_, ?_, ?_⟩
          · intro b hb; simp [decodeLoop] at hb
          · simp [decodeLoop, ceilChunks_zero B hB]
          · simp [decodeLoop]
      | cons t ts' =>
          set rem : List Int := t :: ts' with hrem
          have hlen : 0 < rem.length := by simp [hrem]
          set n_eval := min B rem.length with hne
          have hne1 : 1 ≤ n_eval := by omega
          have hneB : n_eval ≤ B := Nat.min_le_left _ _
          have hnel : n_eval ≤ rem.length := Nat.min_le_right _ _
          have hdrop : (rem.drop n_eval).length = rem.length - n_eval := by
            simp
          have hdf : (rem.drop n_eval).length ≤ fuel := by
            rw [hdrop]
            have : rem.length ≤ fuel + 1 := h
            omega
          have hclen : (rem.take n_eval).length = n_eval := by
            simp [hnel]
          obtain ⟨ih1, ih2, ih3, ih4, ih5, ih6⟩ :=
            ih (rem.drop n_eval) (k + 1) (np + n_eval) hdf
          have heval : eval k (mkBatch (rem.take n_eval) np
              (n_eval == rem.length)) = 0 := h0 _ _
          have hstep : decodeLoop eval B (fuel + 1) k rem np =
              ((decodeLoop eval B fuel (k + 1) (rem.drop n_eval) (np + n_eval)).1,
               (decodeLoop eval B fuel (k + 1) (rem.drop n_eval) (np + n_eval)).2.1,
               mkBatch (rem.take n_eval) np (n_eval == rem.length) ::
                 (decodeLoop eval B fuel (k + 1) (rem.drop n_eval)
                   (np + n_eval)).2.2) := by
            conv_lhs => rw [hrem, decodeLoop]
            simp only [← hrem, ← hne, heval]
            simp
          rw [hstep]
          refine ⟨ih1, ?_, ?_, ?_, ?_, ?_⟩
          · rw [ih2, hdrop]
            omega
          · simp only [List.map_cons, List.flatten_cons, ih3,
              mkBatch_map_token]
            exact List.take_append_drop _ _
          · intro b hb
            rcases List.mem_cons.mp hb with hb1 | hb2
            · subst hb1
              constructor
              · rw [mkBatch_length, hclen]; exact hneB
              · intro hnil
                have hL := mkBatch_length (rem.take n_eval) (n_eval == rem.length) np
                rw [hnil, hclen] at hL
                simp only [List.length_nil] at hL
                omega
            · exact ih4 b hb2
          · simp only [List.length_cons, ih5, hdrop]
            rw [ceilChunks_step rem.length B hB hlen, ← hne]
            omega
          · simp only [List.flatten_cons, List.map_append, ih6,
              mkBatch_map_pos, hclen, hdrop]
            have hsplit : rem.length = n_eval + (rem.length - n_eval) := by omega
            conv_rhs => rw [hsplit]
            exact (range_shift_split np n_eval (rem.length - n_eval)).symm

/-- One unfolding step of the loop on a non-empty token list. -/
lemma decodeLoop_ne (eval : Nat → List BatchEntry → Int) (B fuel k : Nat)
    (np : Int) (rem : List Int) (hne : rem ≠ []) :
    decodeLoop eval B (fuel + 1) k rem np =
      (let n_eval := min B rem.length
       let batch := mkBatch (rem.take n_eval) np (n_eval == rem.length)
       if eval k batch ≠ 0 then (eval k batch, np, [batch])
       else
         let r := decodeLoop eval B fuel (k + 1) (rem.drop n_eval) (np + n_eval)
         (r.1, r.2.1, batch :: r.2.2)) := by
  cases rem with
  | nil => exact absurd rfl hne
  | cons t ts' => rw [decodeLoop]

/-- The loop on an empty token list does nothing. -/
lemma decodeLoop_nil (eval : Nat → List BatchEntry → Int) (B fuel k : Nat)
    (np : Int) : decodeLoop eval B fuel k [] np = (0, np, []) := by
  cases fuel <;> rfl

lemma ceilChunks_le_one (n B : Nat) (hB : 0 < B) (h : n ≤ B) :
    ceilChunks n B ≤ 1 := by
  rcases Nat.eq_zero_or_pos n with h0 | h0
  · subst h0; rw [ceilChunks_zero B hB]; omega
  · rw [ceilChunks_pos_eq n B hB h0]
    have : (n - 1) / B = 0 := Nat.div_eq_of_lt (by omega)
    omega

lemma lt_of_ceilChunks_ge_two (n B : Nat) (hB : 0 < B)
    (h : 2 ≤ ceilChunks n B) : B < n := by
  by_contra hc
  have := ceilChunks_le_one n B hB (by omega)
  omega

lemma two_le_ceilChunks (n B : Nat) (hB : 0 < B) (h : B < n) :
    2 ≤ ceilChunks n B := by
  rw [ceilChunks_pos_eq n B hB (by omega)]
  have : 1 ≤ (n - 1) / B := (Nat.le_div_iff_mul_le hB).mpr (by omega)
  omega

/-- The logits flags of all submitted batches, provided no evaluation
before the final chunk fails: exactly the last position of the final chunk
is flagged, all other positions are unset. -/
lemma decodeLoop_flags (eval : Nat → List BatchEntry → Int) (B : Nat)
    (hB : 0 < B) :
    ∀ fuel ts (k : Nat) (np : Int),
      (∀ k2 b, k2 + 1 < k + ceilChunks ts.length B → eval k2 b = 0) →
      ts ≠ [] → ts.length ≤ fuel →
      ((decodeLoop eval B fuel k ts np).2.2.flatten.map BatchEntry.logits)
        = List.replicate (ts.length - 1) false ++ [true] := by
  intro fuel
  induction fuel with
  | zero =>
      intro ts k np hpre hne h
      have : ts = [] := List.length_eq_zero.mp (by omega)
      exact absurd this hne
  | succ fuel ih =>
      intro ts k np hpre hne h
      have hlen : 0 < ts.length := List.length_pos.mpr hne
      rw [decodeLoop_ne eval B fuel k np ts hne]
      simp only []
      rcases le_or_lt ts.length B with hle | hlt
      · -- the single remaining chunk is the final chunk of the call
        have hne1 : min B ts.length = ts.length := by omega
        simp only [hne1, List.take_length, beq_self_eq_true]
        by_cases hres : eval k (mkBatch ts np true) ≠ 0
        · rw [if_pos hres]
          simp only [List.flatten_cons, List.flatten_nil, List.append_nil]
          exact mkBatch_logits_true ts hne np
        · rw [if_neg hres]
          have hdrop : ts.drop ts.length = [] := by simp
          rw [hdrop, decodeLoop_nil]
          simp only [List.flatten_cons, List.flatten_nil, List.append_nil]
          exact mkBatch_logits_true ts hne np
      · -- a full non-final chunk of exactly B tokens
        have hne1 : min B ts.length = B := by omega
        have hbeq : (B == ts.length) = false := by
          simp only [beq_eq_false_iff_ne]
          omega
        simp only [hne1, hbeq]
        have heval : eval k (mkBatch (ts.take B) np false) = 0 := by
          apply hpre
          have := two_le_ceilChunks ts.length B hB hlt
          omega
        rw [if_neg (by simp [heval])]
        have hd : (ts.drop B).length = ts.length - B := by simp
        have hstep := ceilChunks_step ts.length B hB hlen
        rw [hne1] at hstep
        have hpre2 : ∀ k2 b,
            k2 + 1 < (k + 1) + ceilChunks (ts.drop B).length B →
            eval k2 b = 0 := by
          intro k2 b hlt2
          rw [hd] at hlt2
          exact hpre k2 b (by omega)
        have hne2 : ts.drop B ≠ [] := by
          intro hc
          have := congrArg List.length hc
          rw [hd] at this
          simp at this
          omega
        have hf2 : (ts.drop B).length ≤ fuel := by
          rw [hd]; omega
        have ihr := ih (ts.drop B) (k + 1) (np + (B : Int)) hpre2 hne2 hf2
        simp only [List.flatten_cons, List.map_append]
        rw [mkBatch_logits_false, ihr]
        have hlt1 : (ts.take B).length = B := by
          simp
          omega
        rw [hlt1, hd, ← List.append_assoc, ← List.replicate_add]
        congr 3
        omega

/-- Behaviour of the chunk loop when the first `j` evaluations succeed and
the `j`-th fails with status `e`: the loop aborts with `e` after advancing
`n_past` by the `j * B` tokens of the successful full chunks. -/
lemma decodeLoop_failure (eval : Nat → List BatchEntry → Int) (B : Nat)
    (hB : 0 < B) (e : Int) (he : e ≠ 0) :
    ∀ j fuel ts (k0 : Nat) (np : Int),
      (∀ k2 b, k2 < j → eval (k0 + k2) b = 0) →
      (∀ b, eval (k0 + j) b = e) →
      j < ceilChunks ts.length B → ts.length ≤ fuel →
      (decodeLoop eval B fuel k0 ts np).1 = e ∧
      (decodeLoop eval B fuel k0 ts np).2.1 = np + ((j * B : Nat) : Int) := by
  intro j
  induction j with
  | zero =>
      intro fuel ts k0 np hpre hj hceil hfuel
      have hlen : 0 < ts.length := by
        by_contra hc
        have h0 : ts.length = 0 := by omega
        rw [h0, ceilChunks_zero B hB] at hceil
        omega
      have hne : ts ≠ [] := by
        intro hc
        rw [hc] at hlen
        simp at hlen
      cases fuel with
      | zero => omega
      | succ fuel =>
          rw [decodeLoop_ne eval B fuel k0 np ts hne]
          simp only []
          have heval := hj (mkBatch (ts.take (min B ts.length)) np
            ((min B ts.length == ts.length)))
          rw [Nat.add_zero] at heval
          rw [if_pos (by rw [heval]; exact he)]
          refine ⟨heval, by simp⟩
  | succ j ihj =>
      intro fuel ts k0 np hpre hj hceil hfuel
      have hceil2 : 2 ≤ ceilChunks ts.length B := by omega
      have hlt : B < ts.length := lt_of_ceilChunks_ge_two _ _ hB hceil2
      have hlen : 0 < ts.length := by omega
      have hne : ts ≠ [] := by
        intro hc
        rw [hc] at hlen
        simp at hlen
      cases fuel with
      | zero => omega
      | succ fuel =>
          rw [decodeLoop_ne eval B fuel k0 np ts hne]
          simp only []
          have hne1 : min B ts.length = B := by omega
          simp only [hne1]
          have heval : eval k0 (mkBatch (ts.take B) np ((B == ts.length))) = 0 := by
            have := hpre 0 (mkBatch (ts.take B) np ((B == ts.length)))
              (Nat.succ_pos j)
            rwa [Nat.add_zero] at this
          rw [if_neg (by simp [heval])]
          have hd : (ts.drop B).length = ts.length - B := by simp
          have hstep := ceilChunks_step ts.length B hB hlen
          rw [hne1] at hstep
          have hpre2 : ∀ k2 b, k2 < j → eval ((k0 + 1) + k2) b = 0 := by
            intro k2 b hk2
            have hx : (k0 + 1) + k2 = k0 + (k2 + 1) := by omega
            rw [hx]
            exact hpre (k2 + 1) b (by omega)
          have hj2 : ∀ b, eval ((k0 + 1) + j) b = e := by
            intro b
            have hx : (k0 + 1) + j = k0 + (j + 1) := by omega
            rw [hx]
            exact hj b
          have hceil3 : j < ceilChunks (ts.drop B).length B := by
            rw [hd]; omega
          have hfuel2 : (ts.drop B).length ≤ fuel := by
            rw [hd]; omega
          obtain ⟨ih1, ih2⟩ := ihj fuel (ts.drop B) (k0 + 1)
            (np + (B : Int)) hpre2 hj2 hceil3 hfuel2
          refine ⟨ih1, ?_⟩
          show (decodeLoop eval B fuel (k0 + 1) (ts.drop B)
            (np + (B : Int))).2.1 = np + (((j + 1) * B : Nat) : Int)
          rw [ih2]
          push_cast
          ring

/-! ## Claim theorems: batched decode -/

/-- C1: for every loaded Context with batch width `B` and every token
sequence of length `n`, when every chunk evaluation reports status 0,
`decode` returns 0, splits the sequence into `⌈n/B⌉` consecutive chunks
each no larger than `B`, assigns each token the cache position
`CachePosition`-before-the-call plus its global offset in the sequence, and
leaves `CachePosition` equal to `CachePosition`-before plus `n`. -/
theorem decode_chunking_spec (eval : Nat → List BatchEntry → Int)
    (s : LlamaState) (ctx : LlamaCtx) (tokens : List Int)
    (hctx : s.g_ctx = some ctx) (hB : 0 < ctx.n_batch)
    (h0 : ∀ k b, eval k b = 0) :
    (decode_tokens_internal eval s tokens).1 = 0 ∧
    (decode_tokens_internal eval s tokens).2.1.g_n_past
      = s.g_n_past + (tokens.length : Int) ∧
    (decode_tokens_internal eval s tokens).2.2.length
      = ceilChunks tokens.length ctx.n_batch ∧
    (∀ b ∈ (decode_tokens_internal eval s tokens).2.2,
      b.length ≤ ctx.n_batch) ∧
    ((decode_tokens_internal eval s tokens).2.2.map
      (List.map BatchEntry.token)).flatten = tokens ∧
    ((decode_tokens_internal eval s tokens).2.2.flatten.map BatchEntry.pos)
      = (List.range tokens.length).map
          (fun j : Nat => s.g_n_past + (j : Int)) := by
  obtain ⟨h1, h2, h3, h4, h5, h6⟩ := decodeLoop_success eval ctx.n_batch hB
    h0 tokens.length tokens 0 s.g_n_past le_rfl
  simp only [decode_tokens_internal, hctx]
  exact ⟨h1, h2, h5, fun b hb => (h4 b hb).1, h3, h6⟩

/-- Witness for C1: batch width 2, three tokens starting at cache
position 5: two chunks, final position 8. -/
theorem decode_chunking_spec_witness :
    (decode_tokens_internal (fun _ _ => 0)
      ⟨some (), some ⟨2048, 2, 2, 4, 4, true⟩, none, 5⟩ [7, 8, 9]).1 = 0 ∧
    (decode_tokens_internal (fun _ _ => 0)
      ⟨some (), some ⟨2048, 2, 2, 4, 4, true⟩, none, 5⟩
        [7, 8, 9]).2.1.g_n_past = 8 ∧
    (decode_tokens_internal (fun _ _ => 0)
      ⟨some (), some ⟨2048, 2, 2, 4, 4, true⟩, none, 5⟩ [7, 8, 9]).2.2.length
      = 2 ∧
    ((decode_tokens_internal (fun _ _ => 0)
      ⟨some (), some ⟨2048, 2, 2, 4, 4, true⟩, none, 5⟩ [7, 8, 9]).2.2.map
        (List.map BatchEntry.token)).flatten = [7, 8, 9] := by
  obtain ⟨h1, h2, h3, _, h5, _⟩ := decode_chunking_spec (fun _ _ => 0)
    ⟨some (), some ⟨2048, 2, 2, 4, 4, true⟩, none, 5⟩ ⟨2048, 2, 2, 4, 4, true⟩
    [7, 8, 9] rfl (by decide) (fun _ _ => rfl)
  refine ⟨h1, ?_, by simpa using h3, h5⟩
  rw [h2]
  decide

/-- Counterexample to C2 as stated: with batch width 1 and the two-token
sequence `[10, 11]`, an evaluation failure on the very first chunk aborts
the call before the final chunk is ever built, so the logits flags across
all submitted chunks are `[false]` — no position at all has its logits flag
set, not exactly one. -/
theorem decode_logits_counterexample :
    ((decode_tokens_internal (fun _ _ => 1)
        ⟨some (), some ⟨2048, 1, 1, 4, 4, true⟩, none, 0⟩
        [10, 11]).2.2.flatten.map BatchEntry.logits) = [false] ∧
    (((decode_tokens_internal (fun _ _ => 1)
        ⟨some (), some ⟨2048, 1, 1, 4, 4, true⟩, none, 0⟩
        [10, 11]).2.2.flatten.filter BatchEntry.logits).length ≠ 1) := by
  constructor <;> decide

/-- C2 (amended): for every decode call on a non-empty token sequence in
which no chunk evaluation before the final chunk fails, the logits flags
across all submitted positions, in order, are false everywhere except at
the very last token of the final chunk: exactly one position has logits
requested. -/
theorem decode_logits_final_only (eval : Nat → List BatchEntry → Int)
    (s : LlamaState) (ctx : LlamaCtx) (tokens : List Int)
    (hctx : s.g_ctx = some ctx) (hB : 0 < ctx.n_batch)
    (hne : tokens ≠ [])
    (hpre : ∀ k b, k + 1 < ceilChunks tokens.length ctx.n_batch →
      eval k b = 0) :
    ((decode_tokens_internal eval s tokens).2.2.flatten.map
      BatchEntry.logits)
      = List.replicate (tokens.length - 1) false ++ [true] := by
  simp only [decode_tokens_internal, hctx]
  exact decodeLoop_flags eval ctx.n_batch hB tokens.length tokens 0
    s.g_n_past (by simpa using hpre) hne le_rfl

/-- Witness for C2: batch width 2, three tokens, all evaluations
succeed. -/
theorem decode_logits_final_only_witness :
    ((decode_tokens_internal (fun _ _ => 0)
      ⟨some (), some ⟨2048, 2, 2, 4, 4, true⟩, none, 5⟩
      [7, 8, 9]).2.2.flatten.map BatchEntry.logits)
      = [false, false, true] := by
  have h := decode_logits_final_only (fun _ _ => 0)
    ⟨some (), some ⟨2048, 2, 2, 4, 4, true⟩, none, 5⟩ ⟨2048, 2, 2, 4, 4, true⟩
    [7, 8, 9] rfl (by decide) (by decide) (fun _ _ _ => rfl)
  simpa using h

/-- C3: `decode` with no Context returns `-1` leaving the state untouched;
and when the first `j` chunk evaluations succeed and the `j`-th reports a
non-zero status `e`, `decode` returns `e` and `CachePosition` advances by
exactly the `j * B` tokens of the successfully evaluated chunks (no
rollback, the failing chunk contributes nothing). -/
theorem decode_failure_behavior (eval : Nat → List BatchEntry → Int)
    (s : LlamaState) (tokens : List Int) :
    (s.g_ctx = none → decode_tokens_internal eval s tokens = (-1, s, [])) ∧
    (∀ (ctx : LlamaCtx) (j : Nat) (e : Int), s.g_ctx = some ctx →
      0 < ctx.n_batch → e ≠ 0 →
      (∀ k b, k < j → eval k b = 0) → (∀ b, eval j b = e) →
      j < ceilChunks tokens.length ctx.n_batch →
      (decode_tokens_internal eval s tokens).1 = e ∧
      (decode_tokens_internal eval s tokens).2.1.g_n_past
        = s.g_n_past + ((j * ctx.n_batch : Nat) : Int)) := by
  constructor
  · intro hctx
    simp only [decode_tokens_internal, hctx]
  · intro ctx j e hctx hB he hpre hj hceil
    have hpre0 : ∀ k2 b, k2 < j → eval (0 + k2) b = 0 := by
      intro k2 b hk
      rw [Nat.zero_add]
      exact hpre k2 b hk
    have hj0 : ∀ b, eval (0 + j) b = e := by
      intro b
      rw [Nat.zero_add]
      exact hj b
    obtain ⟨h1, h2⟩ := decodeLoop_failure eval ctx.n_batch hB e he j
      tokens.length tokens 0 s.g_n_past hpre0 hj0 hceil le_rfl
    simp only [decode_tokens_internal, hctx]
    exact ⟨h1, h2⟩

/-- Witness for C3: one state with no Context (returns `-1` unchanged),
and one run with batch width 2 over five tokens where the second chunk
fails with status 7: the call returns 7 and the cache position advances by
exactly the 2 tokens of the first chunk. -/
theorem decode_failure_behavior_witness :
    decode_tokens_internal (fun k _ => if k = 0 then 0 else 7)
      ⟨none, none, none, 3⟩ [1, 2]
      = (-1, ⟨none, none, none, 3⟩, []) ∧
    (decode_tokens_internal (fun k _ => if k = 0 then 0 else 7)
      ⟨some (), some ⟨2048, 2, 2, 4, 4, true⟩, none, 0⟩
      [1, 2, 3, 4, 5]).1 = 7 ∧
    (decode_tokens_internal (fun k _ => if k = 0 then 0 else 7)
      ⟨some (), some ⟨2048, 2, 2, 4, 4, true⟩, none, 0⟩
      [1, 2, 3, 4, 5]).2.1.g_n_past = 2 := by
  refine ⟨(decode_failure_behavior (fun k _ => if k = 0 then 0 else 7)
    ⟨none, none, none, 3⟩ [1, 2]).1 rfl, ?_⟩
  obtain ⟨h1, h2⟩ := (decode_failure_behavior (fun k _ => if k = 0 then 0 else 7)
    ⟨some (), some ⟨2048, 2, 2, 4, 4, true⟩, none, 0⟩ [1, 2, 3, 4, 5]).2
    ⟨2048, 2, 2, 4, 4, true⟩ 1 7 rfl (by decide) (by decide)
    (fun k b hk => by
      have : k = 0 := by omega
      simp [this])
    (fun b => rfl) (by decide)
  refine ⟨h1, ?_⟩
  rw [h2]
  decide

/-! ## Claim theorems: model lifecycle and sampler -/

/-- Counterexample to C5 as stated: `resetSampler` installs a sampler
chain even when nothing is loaded, and a subsequent fresh `loadModel` whose
weight load fails returns failure with that SamplerChain still non-null
(the pre-load teardown only runs when a model was loaded), so the
"Model, Context, and SamplerChain all null" part of the claim fails on a
reachable state. -/
theorem loadModel_failure_counterexample :
    (loadModel none true 2048 4 (resetSampler initState 1 1 0)).1 = false ∧
    (loadModel none true 2048 4 (resetSampler initState 1 1 0)).2.1.g_model
      = none ∧
    (loadModel none true 2048 4 (resetSampler initState 1 1 0)).2.1.g_sampler
      ≠ none := by
  refine ⟨rfl, rfl, ?_⟩
  simp [loadModel, resetSampler, initState]

/-- C5 (amended): `loadModel` fails cleanly rather than fully atomically.
Under the reachability invariant that an absent Model implies an absent
Context and `CachePosition = 0`: on weight-load failure it returns failure
with Model and Context null and `CachePosition` 0, and the SamplerChain is
null when a model was loaded at entry (pre-load teardown) but survives
unchanged when nothing was loaded (e.g. a chain installed by
`resetSampler` before any load); if Context creation fails, the just-loaded
Model is freed as well (no orphaned Model) and failure is returned; and
when a model is already loaded, SamplerChain, Context, and Model are
destroyed in that order before the new load is attempted. -/
theorem loadModel_failure_cleanup (weightLoad : Option Unit)
    (ctxCreate : Bool) (cs th : Int) (s : LlamaState)
    (hinv : s.g_model = none → s.g_ctx = none ∧ s.g_n_past = 0) :
    (weightLoad = none →
      (loadModel weightLoad ctxCreate cs th s).1 = false ∧
      (loadModel weightLoad ctxCreate cs th s).2.1.g_model = none ∧
      (loadModel weightLoad ctxCreate cs th s).2.1.g_ctx = none ∧
      (loadModel weightLoad ctxCreate cs th s).2.1.g_n_past = 0 ∧
      (s.g_model = none →
        (loadModel weightLoad ctxCreate cs th s).2.1.g_sampler
          = s.g_sampler) ∧
      (s.g_model.isSome →
        (loadModel weightLoad ctxCreate cs th s).2.1.g_sampler = none)) ∧
    (∀ m, weightLoad = some m → ctxCreate = false →
      (loadModel weightLoad ctxCreate cs th s).1 = false ∧
      (loadModel weightLoad ctxCreate cs th s).2.1.g_model = none ∧
      (loadModel weightLoad ctxCreate cs th s).2.1.g_ctx = none) ∧
    (s.g_model.isSome → s.g_ctx.isSome → s.g_sampler.isSome →
      ∃ rest, (loadModel weightLoad ctxCreate cs th s).2.2
        = FreeEvent.freeSampler :: FreeEvent.freeCtx ::
          FreeEvent.freeModel :: rest) := by
  refine ⟨?_, ?_, ?_⟩
  · intro hw
    subst hw
    cases hm : s.g_model with
    | none =>
        obtain ⟨hc, hn⟩ := hinv hm
        simp [loadModel, hm, hc, hn]
    | some m => simp [loadModel, hm]
  · intro m hw hc
    subst hw
    subst hc
    cases hm : s.g_model with
    | none => simp [loadModel, hm]
    | some m2 => simp [loadModel, hm]
  · intro h1 h2 h3
    cases hm : s.g_model with
    | none => rw [hm] at h1; simp at h1
    | some m2 =>
        cases weightLoad with
        | none => exact ⟨[], by simp [loadModel, hm, h2, h3]⟩
        | some m3 =>
            cases ctxCreate with
            | true => exact ⟨[], by simp [loadModel, hm, h2, h3]⟩
            | false =>
                exact ⟨[FreeEvent.freeModel], by simp [loadModel, hm, h2, h3]⟩

/-- Witness for C5 (amended): a reloading state (everything loaded) whose
weight load fails: returns failure, all clean, and the teardown trace is
sampler, context, model in that order. -/
theorem loadModel_failure_cleanup_witness :
    (loadModel none true 2048 4
      ⟨some (), some ⟨2048, 512, 512, 4, 4, true⟩,
       some defaultSamplerChain, 9⟩).1 = false ∧
    (loadModel none true 2048 4
      ⟨some (), some ⟨2048, 512, 512, 4, 4, true⟩,
       some defaultSamplerChain, 9⟩).2.1.g_model = none ∧
    (loadModel none true 2048 4
      ⟨some (), some ⟨2048, 512, 512, 4, 4, true⟩,
       some defaultSamplerChain, 9⟩).2.1.g_sampler = none ∧
    (loadModel none true 2048 4
      ⟨some (), some ⟨2048, 512, 512, 4, 4, true⟩,
       some defaultSamplerChain, 9⟩).2.2
      = [FreeEvent.freeSampler, FreeEvent.freeCtx, FreeEvent.freeModel] := by
  have h := loadModel_failure_cleanup none true 2048 4
    ⟨some (), some ⟨2048, 512, 512, 4, 4, true⟩, some defaultSamplerChain, 9⟩
    (fun hc => by simp at hc)
  obtain ⟨ha, _, hc⟩ := h
  obtain ⟨h1, h2, _, _, _, h6⟩ := ha rfl
  obtain ⟨rest, hrest⟩ := hc rfl rfl rfl
  refine ⟨h1, h2, h6 rfl, ?_⟩
  rw [hrest]
  have : rest = [] := by
    have hlen := congrArg List.length hrest
    simp [loadModel] at hlen
    exact hlen
  rw [this]

/-- C6: whenever `loadModel` returns success, `CachePosition` is 0, the
SamplerChain is exactly top-k(40), top-p(0.9, min-keep 1),
temperature(0.7), stochastic draw(seed 42) in that order, and Model,
Context, and SamplerChain are all non-null; success is returned only in
that situation. -/
theorem loadModel_success_state (weightLoad : Option Unit)
    (ctxCreate : Bool) (cs th : Int) (s : LlamaState)
    (hsucc : (loadModel weightLoad ctxCreate cs th s).1 = true) :
    (loadModel weightLoad ctxCreate cs th s).2.1.g_n_past = 0 ∧
    (loadModel weightLoad ctxCreate cs th s).2.1.g_sampler
      = some [SamplerStage.top_k 40, SamplerStage.top_p (9/10) 1,
              SamplerStage.temp (7/10), SamplerStage.dist 42] ∧
    (loadModel weightLoad ctxCreate cs th s).2.1.g_model.isSome = true ∧
    (loadModel weightLoad ctxCreate cs th s).2.1.g_ctx.isSome = true := by
  cases weightLoad with
  | none => simp [loadModel] at hsucc
  | some m =>
      cases ctxCreate with
      | true => simp [loadModel, defaultSamplerChain]
      | false => simp [loadModel] at hsucc

/-- Witness for C6: a successful fresh load. -/
theorem loadModel_success_state_witness :
    (loadModel (some ()) true 2048 4 initState).2.1.g_n_past = 0 ∧
    (loadModel (some ()) true 2048 4 initState).2.1.g_sampler
      = some [SamplerStage.top_k 40, SamplerStage.top_p (9/10) 1,
              SamplerStage.temp (7/10), SamplerStage.dist 42] ∧
    (loadModel (some ()) true 2048 4 initState).2.1.g_model.isSome = true ∧
    (loadModel (some ()) true 2048 4 initState).2.1.g_ctx.isSome = true :=
  loadModel_success_state (some ()) true 2048 4 initState rfl

/-- C7: `resetSampler` replaces the SamplerChain with a new chain holding
a top-k stage iff `topK > 0`, then a top-p stage (min-keep 1) iff
`topP < 1.0`, then either temperature scaling followed by a stochastic
draw with seed 42 (when `temperature > 0`) or a single greedy stage, in
exactly that order, and leaves the Context handle, `CachePosition`, and the
Model untouched. -/
theorem resetSampler_spec (s : LlamaState) (temperature topP : ℚ)
    (topK : Int) :
    (resetSampler s temperature topP topK).g_ctx = s.g_ctx ∧
    (resetSampler s temperature topP topK).g_n_past = s.g_n_past ∧
    (resetSampler s temperature topP topK).g_model = s.g_model ∧
    (resetSampler s temperature topP topK).g_sampler = some (
      (if topK > 0 then [SamplerStage.top_k topK] else []) ++
      (if topP < 1 then [SamplerStage.top_p topP 1] else []) ++
      (if temperature > 0 then
        [SamplerStage.temp temperature, SamplerStage.dist 42]
       else [SamplerStage.greedy])) :=
  ⟨rfl, rfl, rfl, rfl⟩

/-! ## Claim theorems: token-to-text conversion -/

/-- If the decoding loop emits no U+FFFD, the input was well-formed
UTF-8. -/
lemma utf8Go_valid : ∀ (fuel : Nat) (bs : List Nat), bs.length ≤ fuel →
    replacementChar ∉ utf8DecodeGo fuel bs → Utf8Valid bs := by
  intro fuel
  induction fuel with
  | zero =>
      intro bs hlen hmem
      have : bs = [] := List.length_eq_zero.mp (by omega)
      subst this
      exact Utf8Valid.nil
  | succ fuel ih =>
      intro bs hlen hmem
      cases bs with
      | nil => exact Utf8Valid.nil
      | cons b rest =>
          simp only [utf8DecodeGo, List.mem_cons, not_or] at hmem
          obtain ⟨h1, h2⟩ := hmem
          have hlen2 : rest.length ≤ fuel := by
            simp only [List.length_cons] at hlen
            omega
          by_cases hb : b < 0x80
          · have hstep : utf8Step b rest = (0, b) := by simp [utf8Step, hb]
            rw [hstep] at h2
            simp only [List.drop_zero] at h2
            exact Utf8Valid.one hb (ih rest hlen2 h2)
          · by_cases h2b : twoByteLead b
            · cases rest with
              | nil =>
                  have hstep : utf8Step b [] = (0, replacementChar) := by
                    simp [utf8Step, hb, h2b]
                  rw [hstep] at h1
                  exact absurd rfl h1
              | cons c rest2 =>
                  by_cases hc : utf8Cont c
                  · have hstep : utf8Step b (c :: rest2)
                        = (1, (b - 0xC0) * 64 + (c - 0x80)) := by
                      simp [utf8Step, hb, h2b, hc]
                    rw [hstep] at h2
                    simp only [List.drop_succ_cons, List.drop_zero] at h2
                    exact Utf8Valid.two h2b hc
                      (ih rest2 (by simp at hlen2; omega) h2)
                  · have hstep : utf8Step b (c :: rest2)
                        = (0, replacementChar) := by
                      simp [utf8Step, hb, h2b, hc]
                    rw [hstep] at h1
                    exact absurd rfl h1
            · by_cases h3b : threeByteLead b
              · match rest with
                | [] =>
                    have hstep : utf8Step b [] = (0, replacementChar) := by
                      simp [utf8Step, hb, h2b, h3b]
                    rw [hstep] at h1
                    exact absurd rfl h1
                | [c] =>
                    have hstep : utf8Step b [c] = (0, replacementChar) := by
                      simp [utf8Step, hb, h2b, h3b]
                    rw [hstep] at h1
                    exact absurd rfl h1
                | c :: d :: rest2 =>
                    by_cases hcd : cont3 b c ∧ utf8Cont d
                    · have hstep : utf8Step b (c :: d :: rest2)
                          = (2, (b - 0xE0) * 4096 + (c - 0x80) * 64 +
                              (d - 0x80)) := by
                        simp [utf8Step, hb, h2b, h3b, hcd]
                      rw [hstep] at h2
                      simp only [List.drop_succ_cons, List.drop_zero] at h2
                      exact Utf8Valid.three h3b hcd.1 hcd.2
                        (ih rest2 (by simp at hlen2; omega) h2)
                    · have hstep : utf8Step b (c :: d :: rest2)
                          = (0, replacementChar) := by
                        simp [utf8Step, hb, h2b, h3b, hcd]
                      rw [hstep] at h1
                      exact absurd rfl h1
              · by_cases h4b : fourByteLead b
                · match rest with
                  | [] =>
                      have hstep : utf8Step b [] = (0, replacementChar) := by
                        simp [utf8Step, hb, h2b, h3b, h4b]
                      rw [hstep] at h1
                      exact absurd rfl h1
                  | [c] =>
                      have hstep : utf8Step b [c] = (0, replacementChar) := by
                        simp [utf8Step, hb, h2b, h3b, h4b]
                      rw [hstep] at h1
                      exact absurd rfl h1
                  | [c, d] =>
                      have hstep : utf8Step b [c, d]
                          = (0, replacementChar) := by
                        simp [utf8Step, hb, h2b, h3b, h4b]
                      rw [hstep] at h1
                      exact absurd rfl h1
                  | c :: d :: e :: rest2 =>
                      by_cases hcde : cont4 b c ∧ utf8Cont d ∧ utf8Cont e
                      · have hstep : utf8Step b (c :: d :: e :: rest2)
                            = (3, (b - 0xF0) * 262144 + (c - 0x80) * 4096 +
                                (d - 0x80) * 64 + (e - 0x80)) := by
                          simp [utf8Step, hb, h2b, h3b, h4b, hcde]
                        rw [hstep] at h2
                        simp only [List.drop_succ_cons, List.drop_zero] at h2
                        exact Utf8Valid.four h4b hcde.1 hcde.2.1 hcde.2.2
                          (ih rest2 (by simp at hlen2; omega) h2)
                      · have hstep : utf8Step b (c :: d :: e :: rest2)
                            = (0, replacementChar) := by
                          simp [utf8Step, hb, h2b, h3b, h4b, hcde]
                        rw [hstep] at h1
                        exact absurd rfl h1
                · have hstep : utf8Step b rest = (0, replacementChar) := by
                    cases rest <;> simp [utf8Step, hb, h2b, h3b, h4b]
                  rw [hstep] at h1
                  exact absurd rfl h1

/-- If replacement decoding emits no U+FFFD, the input was well-formed
UTF-8; contrapositively, any malformed byte sequence produces at least one
replacement character in the output. -/
lemma utf8Valid_of_no_replacement (bs : List Nat)
    (h : replacementChar ∉ utf8DecodeReplace bs) : Utf8Valid bs :=
  utf8Go_valid bs.length bs le_rfl h

/-- C4: with a loaded Model, `tokenToString` returns the empty string when
the piece lookup reports a negative length; otherwise it converts the
reported bytes by UTF-8 decoding with replacement — a total conversion
(never a failure value), which substitutes U+FFFD whenever the byte
sequence is not well-formed UTF-8, including invalid multi-byte
fragments. -/
theorem tokenToString_replacement_safe (pieceLookup : Int → Int × List Nat)
    (s : LlamaState) (token : Int) (m : Unit) (hm : s.g_model = some m) :
    ((pieceLookup token).1 < 0 → tokenToString pieceLookup s token = []) ∧
    (0 ≤ (pieceLookup token).1 →
      tokenToString pieceLookup s token
        = utf8DecodeReplace
            ((pieceLookup token).2.take (pieceLookup token).1.toNat)) ∧
    (0 ≤ (pieceLookup token).1 →
      ¬ Utf8Valid ((pieceLookup token).2.take (pieceLookup token).1.toNat) →
      replacementChar ∈ tokenToString pieceLookup s token) := by
  refine ⟨?_, ?_, ?_⟩
  · intro hneg
    simp [tokenToString, hm, hneg]
  · intro hpos
    rcases lt_or_eq_of_le hpos with hlt | heq
    · simp only [tokenToString, hm, new_string_from_utf8_bytes]
      rw [if_neg (by omega), if_neg (by omega)]
    · simp only [tokenToString, hm, new_string_from_utf8_bytes]
      rw [if_neg (by omega), if_pos (by omega)]
      rw [show (pieceLookup token).1.toNat = 0 by omega]
      simp [utf8DecodeReplace, utf8DecodeGo]
  · intro hpos hinvalid
    have h2 : tokenToString pieceLookup s token
        = utf8DecodeReplace
            ((pieceLookup token).2.take (pieceLookup token).1.toNat) := by
      rcases lt_or_eq_of_le hpos with hlt | heq
      · simp only [tokenToString, hm, new_string_from_utf8_bytes]
        rw [if_neg (by omega), if_neg (by omega)]
      · simp only [tokenToString, hm, new_string_from_utf8_bytes]
        rw [if_neg (by omega), if_pos (by omega)]
        rw [show (pieceLookup token).1.toNat = 0 by omega]
        simp [utf8DecodeReplace, utf8DecodeGo]
    rw [h2]
    by_contra hmem
    exact hinvalid (utf8Valid_of_no_replacement _ hmem)

/-- Witness for C4: a lookup reporting a lone continuation byte `0x80`
(an invalid fragment) yields a U+FFFD in the output, and a lookup
reporting a negative length yields the empty string. -/
theorem tokenToString_replacement_safe_witness :
    replacementChar ∈ tokenToString (fun _ => (1, [0x80]))
      ⟨some (), none, none, 0⟩ 5 ∧
    tokenToString (fun _ => (-1, [0x41])) ⟨some (), none, none, 0⟩ 5 = [] := by
  constructor
  · exact (tokenToString_replacement_safe (fun _ => (1, [0x80]))
      ⟨some (), none, none, 0⟩ 5 () rfl).2.2 (by decide)
      (by
        intro hv
        cases hv with
        | one h1 h2 => omega)
  · exact (tokenToString_replacement_safe (fun _ => (-1, [0x41]))
      ⟨some (), none, none, 0⟩ 5 () rfl).1 (by decide)

/-! ## Claim theorems: transcription -/

lemma sinkTrace_length : ∀ (bs : List (List Text)) (acc : Text),
    (sinkTrace acc bs).length = bs.length := by
  intro bs
  induction bs with
  | nil => intro acc; rfl
  | cons b bs' ih => intro acc; simp [sinkTrace, ih]

lemma sinkTrace_head (acc : Text) (bs : List (List Text)) :
    ∀ y ∈ (sinkTrace acc bs).head?, ∃ t, y = acc ++ t := by
  cases bs with
  | nil => intro y hy; simp [sinkTrace] at hy
  | cons b bs' =>
      intro y hy
      simp only [sinkTrace, List.head?_cons, Option.mem_def,
        Option.some_inj] at hy
      exact ⟨b.flatten, hy.symm⟩

/-- The strings passed to the sink are prefix-monotonic: each extends the
previous one. -/
lemma sinkTrace_chain : ∀ (bs : List (List Text)) (acc : Text),
    List.Chain' (fun x y : Text => ∃ t, y = x ++ t) (sinkTrace acc bs) := by
  intro bs
  induction bs with
  | nil => intro acc; simp [sinkTrace]
  | cons b bs' ih =>
      intro acc
      simp only [sinkTrace]
      rw [List.chain'_cons']
      exact ⟨sinkTrace_head _ _, ih _⟩

/-- The `i`-th sink invocation receives the accumulator extended by the
concatenation of the first `i + 1` segment batches. -/
lemma sinkTrace_getElem? : ∀ (bs : List (List Text)) (acc : Text)
    (i : Nat) (x : Text), (sinkTrace acc bs)[i]? = some x →
    x = acc ++ ((bs.take (i + 1)).flatten).flatten := by
  intro bs
  induction bs with
  | nil => intro acc i x hx; simp [sinkTrace] at hx
  | cons b bs' ih =>
      intro acc i x hx
      cases i with
      | zero =>
          simp only [sinkTrace, List.getElem?_cons_zero,
            Option.some_inj] at hx
          simp [← hx]
      | succ i' =>
          simp only [sinkTrace, List.getElem?_cons_succ] at hx
          have := ih (acc ++ b.flatten) i' x hx
          rw [this]
          simp [List.take_succ_cons, List.flatten_cons, List.append_assoc]

/-- The last string passed to the sink is the accumulator extended by the
concatenation of all segment batches. -/
lemma sinkTrace_getLast : ∀ (bs : List (List Text)) (acc : Text),
    bs ≠ [] →
    (sinkTrace acc bs).getLast? = some (acc ++ (bs.flatten).flatten) := by
  intro bs
  induction bs with
  | nil => intro acc h; exact absurd rfl h
  | cons b bs' ih =>
      intro acc h
      cases bs' with
      | nil => simp [sinkTrace]
      | cons b2 bs'' =>
          have ih2 := ih (acc ++ b.flatten) (by simp)
          simp only [sinkTrace] at ih2 ⊢
          rw [List.getLast?_cons_cons, ih2]
          simp [List.append_assoc]

/-- C9: on every successful streaming transcription with a sink, the sink
receives the cumulative concatenation of all segment texts finalized so
far, so the sequence of strings passed to it is prefix-monotonic (each
extends the previous one) and its final element equals the string the call
returns; with no sink the call returns the same result as the one-shot
`transcribePcm16`. -/
theorem transcribeStreaming_cumulative (run : WhisperRun)
    (st : WhisperState) (pcm : List Int) (rate : Int) (tag : Option Text)
    (tr : Bool) :
    (∀ out,
      (transcribePcm16Streaming run st pcm rate tag tr true).result
        = some out →
      List.Chain' (fun x y : Text => ∃ t, y = x ++ t)
        (transcribePcm16Streaming run st pcm rate tag tr true).sinkCalls ∧
      (∀ i x,
        ((transcribePcm16Streaming run st pcm rate tag tr true).sinkCalls)[i]?
          = some x →
        x = ((run.batches.take (i + 1)).flatten).flatten) ∧
      (∀ last,
        (transcribePcm16Streaming run st pcm rate tag tr
          true).sinkCalls.getLast? = some last →
        last = out)) ∧
    (transcribePcm16Streaming run st pcm rate tag tr false).result
      = (transcribePcm16 run st pcm rate tag tr).result := by
  have hII : (transcribePcm16Streaming run st pcm rate tag tr false).result
      = (transcribePcm16 run st pcm rate tag tr).result := by
    simp only [transcribePcm16Streaming, transcribePcm16]
    split_ifs <;> rfl
  refine ⟨?_, hII⟩
  intro out hout
  by_cases hL : st.loaded = false
  · simp [transcribePcm16Streaming, hL] at hout
  · by_cases hp : pcm.length = 0
    · have hcalls : (transcribePcm16Streaming run st pcm rate tag tr
          true).sinkCalls = [] := by
        simp [transcribePcm16Streaming, hL, hp]
      refine ⟨?_, ?_, ?_⟩
      · rw [hcalls]; exact List.chain'_nil
      · intro i x hx; rw [hcalls] at hx; simp at hx
      · intro last hlast; rw [hcalls] at hlast; simp at hlast
    · by_cases hr : rate ≠ 16000
      · simp [transcribePcm16Streaming, hL, hp, hr] at hout
      · by_cases hs : run.status ≠ 0
        · simp [transcribePcm16Streaming, hL, hp, hr, hs] at hout
        · have hres : (transcribePcm16Streaming run st pcm rate tag tr
              true).result = some ((run.batches.flatten).flatten) := by
            simp [transcribePcm16Streaming, hL, hp, hr, hs]
          have hcalls : (transcribePcm16Streaming run st pcm rate tag tr
              true).sinkCalls = sinkTrace [] run.batches := by
            simp [transcribePcm16Streaming, hL, hp, hr, hs]
          have hout2 : out = (run.batches.flatten).flatten := by
            rw [hres] at hout
            exact (Option.some_inj.mp hout).symm
          refine ⟨?_, ?_, ?_⟩
          · rw [hcalls]; exact sinkTrace_chain _ _
          · intro i x hx
            rw [hcalls] at hx
            have := sinkTrace_getElem? run.batches [] i x hx
            simpa using this
          · intro last hlast
            rw [hcalls] at hlast
            rcases hb : run.batches with _ | ⟨b, bs'⟩
            · rw [hb] at hlast; simp [sinkTrace] at hlast
            · rw [hb] at hlast
              rw [sinkTrace_getLast (b :: bs') [] (by simp)] at hlast
              rw [hout2, hb]
              simpa using hlast.symm

/-- Witness for C9: a successful streaming run with two single-segment
batches "a" (byte 97) then "b" (byte 98): the sink sees [97] then
[97, 98], prefix-monotonically, and the trace matches. -/
theorem transcribeStreaming_cumulative_witness :
    List.Chain' (fun x y : Text => ∃ t, y = x ++ t)
      (transcribePcm16Streaming ⟨0, [[[97]], [[98]]]⟩ ⟨true, 4⟩ [1] 16000
        none false true).sinkCalls ∧
    (transcribePcm16Streaming ⟨0, [[[97]], [[98]]]⟩ ⟨true, 4⟩ [1] 16000
      none false true).sinkCalls = [[97], [97, 98]] ∧
    (transcribePcm16Streaming ⟨0, [[[97]], [[98]]]⟩ ⟨true, 4⟩ [1] 16000
      none false false).result
      = (transcribePcm16 ⟨0, [[[97]], [[98]]]⟩ ⟨true, 4⟩ [1] 16000
          none false).result := by
  have h := transcribeStreaming_cumulative ⟨0, [[[97]], [[98]]]⟩ ⟨true, 4⟩
    [1] 16000 none false
  exact ⟨(h.1 [97, 98] (by decide)).1, by decide, h.2⟩

/-- Counterexample to C8 as stated: with a loaded RecognitionModel, an
empty sample array and sample rate 44100, `transcribePcm16` returns the
empty string (a success value, not failure): the empty-input check runs
before the sample-rate check. -/
theorem transcribe_rate_counterexample :
    transcribePcm16 ⟨0, []⟩ ⟨true, 4⟩ [] 44100 none false
      = ⟨some [], false⟩ ∧
    (transcribePcm16 ⟨0, []⟩ ⟨true, 4⟩ [] 44100 none false).result
      ≠ none := by
  exact ⟨by decide, by decide⟩

/-- C8 (amended): with a loaded RecognitionModel and a non-empty sample
array, any sample rate other than 16000 makes `transcribePcm16` return
failure without invoking the recognition engine; the engine is only ever
invoked when the sample rate equals 16000 (an empty sample array instead
returns the empty string before the rate check). -/
theorem transcribe_rate_check (run : WhisperRun) (st : WhisperState)
    (pcm : List Int) (rate : Int) (tag : Option Text) (tr : Bool) :
    (st.loaded = true → pcm ≠ [] → rate ≠ 16000 →
      transcribePcm16 run st pcm rate tag tr = ⟨none, false⟩) ∧
    ((transcribePcm16 run st pcm rate tag tr).engineInvoked = true →
      rate = 16000) := by
  constructor
  · intro hL hp hr
    simp [transcribePcm16, hL, hp, hr]
  · intro h
    by_contra h16
    have hE : (transcribePcm16 run st pcm rate tag tr).engineInvoked
        = false := by
      simp only [transcribePcm16]
      split_ifs with h1 h2 h3 h4
      all_goals first
      | rfl
      | exact absurd (not_not.mp h3) h16
    rw [hE] at h
    exact absurd h (by simp)

/-- Witness for C8 (amended): a loaded state, one sample, rate 44100:
failure without engine invocation. -/
theorem transcribe_rate_check_witness :
    transcribePcm16 ⟨0, []⟩ ⟨true, 4⟩ [5] 44100 none false
      = ⟨none, false⟩ := by
  exact (transcribe_rate_check ⟨0, []⟩ ⟨true, 4⟩ [5] 44100 none false).1
    rfl (by decide) (by decide)

/-- C10: with a loaded RecognitionModel and an empty sample array, both
`transcribePcm16` and `transcribePcm16Streaming` return the empty string
immediately — for any sample rate, including unsupported ones — without
invoking the recognition engine and without ever invoking the sink. -/
theorem transcribe_empty_input (run : WhisperRun) (st : WhisperState)
    (pcm : List Int) (rate : Int) (tag : Option Text) (tr : Bool)
    (hL : st.loaded = true) (hp : pcm = []) :
    transcribePcm16 run st pcm rate tag tr = ⟨some [], false⟩ ∧
    (∀ hasSink, transcribePcm16Streaming run st pcm rate tag tr hasSink
      = ⟨some [], false, []⟩) := by
  subst hp
  constructor
  · simp [transcribePcm16, hL]
  · intro hasSink
    simp [transcribePcm16Streaming, hL]

/-- Witness for C10: empty samples at the unsupported rate 44100, with and
without a sink. -/
theorem transcribe_empty_input_witness :
    transcribePcm16 ⟨3, [[[97]]]⟩ ⟨true, 4⟩ [] 44100 (some [101]) false
      = ⟨some [], false⟩ ∧
    transcribePcm16Streaming ⟨3, [[[97]]]⟩ ⟨true, 4⟩ [] 44100 (some [101])
      false true = ⟨some [], false, []⟩ ∧
    transcribePcm16Streaming ⟨3, [[[97]]]⟩ ⟨true, 4⟩ [] 44100 (some [101])
      false false = ⟨some [], false, []⟩ := by
  have h := transcribe_empty_input ⟨3, [[[97]]]⟩ ⟨true, 4⟩ [] 44100
    (some [101]) false rfl rfl
  exact ⟨h.1, h.2 true, h.2 false⟩

end MicroLLM
